import Mathlib

/-
Verification of the slot-materialization and booking core of the `care`
repository, plus the ConsultationSymptom save guard.

Shallow embedding conventions:
- Wall-clock instants are measured in whole minutes.  `parse` of a time
  string yields a datetime on a fixed reference day, so a parsed
  `start_time` or `end_time` is an absolute minute count, and Python's
  `.time()` on a datetime is modelled as reduction modulo `minutesPerDay`.
- The Python dict `slots` (keyed by the string
  `f"{start.time()}-{end.time()}"`, which is injective in the pair of
  times) is modelled as an association list with unique keys, where
  assignment replaces in place and `pop` removes the entry, exactly as a
  Python dict behaves.
- Database rows for one `(resource, day)` query are modelled as a list of
  `TokenSlot` records; fallible operations return `Except`.
-/

/-- Value stored in the `slots` dict of `convert_availability_to_slots`:
start and end time-of-day (minutes since midnight) plus the source
availability id. -/
structure SlotCandidate where
  start_time : Nat
  end_time : Nat
  availability_id : Nat
deriving DecidableEq

/-- Key of the `slots` dict: the pair of time-of-day values that the
Python code renders as the string `"start-end"` (an injective encoding of
the pair, since a time string contains no dash). -/
abbrev SlotKey : Type := Nat × Nat

abbrev CandMap : Type := List (SlotKey × SlotCandidate)

def minutesPerDay : Nat := 1440

/-- Lookup in the dict model: the value at the first (unique) entry whose
key matches. -/
def dictFind : CandMap → SlotKey → Option SlotCandidate
  | [], _ => none
  | (k', v) :: rest, k => if k' = k then some v else dictFind rest k

/-- Python dict assignment `slots[k] = v`: replace the value in place when
the key is present, otherwise append the new entry at the end. -/
def dictInsert : CandMap → SlotKey → SlotCandidate → CandMap
  | [], k, v => [(k, v)]
  | (k', v') :: rest, k, v =>
    if k' = k then (k, v) :: rest else (k', v') :: dictInsert rest k v

/-- Python dict `slots.pop(k)`: drop the (unique) entry with key `k`. -/
def dictPop : CandMap → SlotKey → CandMap
  | [], _ => []
  | (k', v') :: rest, k => if k' = k then rest else (k', v') :: dictPop rest k

/-- One weekly recurrence entry, restricted to the fields the expander
reads: `start_time` and `end_time`, parsed to absolute minutes on the
reference day. -/
structure DayAvailability where
  start_time : Nat
  end_time : Nat
deriving DecidableEq

/-- One element of `calculated_dow_availabilities`: the dict built in
`get_slots_for_day_handler` from an Availability row and one of its
day-of-week recurrence entries. -/
structure AvailEntry where
  availability : DayAvailability
  slot_size_in_minutes : Nat
  availability_id : Nat
deriving DecidableEq

/-- The while-loop of `convert_availability_to_slots` for one availability
entry.  `current` is the running `current_time` in absolute minutes and
`r` counts down the failsafe: the Python counter `i` starts at 0, is
incremented at the top of each iteration, and the loop breaks when `i`
reaches 30 before emitting; with `r = 30 - i` the initial call passes
`r = 30` and the break condition `i == 30` becomes `r = 0` after the
increment.  The case `r = 0` at entry is unreachable from the initial
call (the loop always breaks earlier) and returns the dict unchanged.
Keys and stored times take `.time()` of the running datetimes, i.e. the
value modulo `minutesPerDay`. -/
def convertLoop (end_time slot_size availability_id : Nat) :
    Nat → Nat → CandMap → CandMap
  | _, 0, m => m
  | current, r + 1, m =>
    if current < end_time then
      if r = 0 then m
      else
        convertLoop end_time slot_size availability_id (current + slot_size) r
          (dictInsert m
            (current % minutesPerDay, (current + slot_size) % minutesPerDay)
            ⟨current % minutesPerDay, (current + slot_size) % minutesPerDay,
              availability_id⟩)
    else m

/-- Model of `convert_availability_to_slots`: fold the per-entry while
loop over the list of availability entries, threading the shared `slots`
dict. -/
def convert_availability_to_slots (availabilities : List AvailEntry) : CandMap :=
  availabilities.foldl
    (fun slots a =>
      convertLoop a.availability.end_time a.slot_size_in_minutes
        a.availability_id a.availability.start_time 30 slots)
    []

/-- A persisted TokenSlot row, restricted to the fields this core reads:
the time-of-day parts of `start_datetime` and `end_datetime` (the rows in
scope all lie on the queried day), the source availability id, the
capacity `availability.tokens_per_slot`, and the `allocated` counter. -/
structure TokenSlot where
  start_time : Nat
  end_time : Nat
  availability_id : Nat
  tokens_per_slot : Nat
  allocated : Nat
deriving DecidableEq

/-- A TokenBooking row as created by `lock_create_appointment`. -/
structure TokenBooking where
  token_slot : TokenSlot
  patient : Nat
  booked_by : Nat
  reason_for_visit : String
  status : String
deriving DecidableEq

def slot_full_message : String := "Slot is already full"

def booked_status : String := "booked"

/-- Model of `lock_create_appointment`.  The per-resource lock plus
`transaction.atomic()` make the body one atomic state transition: on
failure the raised ValidationError rolls the transaction back, so the
error branch returns no new state; on success the incremented slot and
the created booking are returned. -/
def lock_create_appointment (token_slot : TokenSlot) (patient created_by : Nat)
    (reason_for_visit : String) : Except String (TokenSlot × TokenBooking) :=
  if token_slot.tokens_per_slot ≤ token_slot.allocated then
    Except.error slot_full_message
  else
    let slot := { token_slot with allocated := token_slot.allocated + 1 }
    Except.ok (slot,
      { token_slot := slot, patient := patient, booked_by := created_by,
        reason_for_visit := reason_for_visit, status := booked_status })

/-- The reconciliation key of an existing TokenSlot row, as computed by
`f"{slot.start_datetime.time()}-{slot.end_datetime.time()}"`. -/
def slotKeyOf (s : TokenSlot) : SlotKey := (s.start_time, s.end_time)

/-- One iteration of the reconciliation loop of
`get_slots_for_day_handler`: if the existing slot's key is in the dict
and the candidate's availability id equals the slot's, pop the entry. -/
def reconStep (slots : CandMap) (slot : TokenSlot) : CandMap :=
  match dictFind slots (slotKeyOf slot) with
  | some c =>
    if c.availability_id = slot.availability_id then
      dictPop slots (slotKeyOf slot)
    else slots
  | none => slots

/-- The reconciliation loop over all existing slots of the day. -/
def reconcileSlots : List TokenSlot → CandMap → CandMap
  | [], slots => slots
  | slot :: rest, slots => reconcileSlots rest (reconStep slots slot)

/-- A TokenSlot row created for one remaining candidate:
`start_datetime`/`end_datetime` combine the day with the candidate's
times (so their time-of-day parts are the candidate's), `allocated` takes
the model default 0, and capacity comes from the candidate's availability
(`caps` maps an availability id to its `tokens_per_slot`). -/
def materializeSlot (caps : Nat → Nat) (c : SlotCandidate) : TokenSlot :=
  { start_time := c.start_time, end_time := c.end_time,
    availability_id := c.availability_id,
    tokens_per_slot := caps c.availability_id, allocated := 0 }

/-- Model of `get_slots_for_day_handler`, after resolution: expand the
day's availability entries, reconcile against the existing rows `store`
for this `(resource, day)`, create a row per remaining candidate, and
return the full row set for the day (the response re-queries all rows of
the day, i.e. the old rows plus the created ones). -/
def get_slots_for_day_handler (caps : Nat → Nat) (avails : List AvailEntry)
    (store : List TokenSlot) : List TokenSlot :=
  let slots := convert_availability_to_slots avails
  let remaining := reconcileSlots store slots
  store ++ remaining.map (fun p => materializeSlot caps p.2)

/-- Booking against the day's row set: `create_appointment` resolves one
TokenSlot row and runs `lock_create_appointment` on it; a failure leaves
the store unchanged (transaction rollback), a success writes back the
incremented row. -/
def bookAt (store : List TokenSlot) (i : Nat) (p u : Nat) (r : String) :
    List TokenSlot :=
  match store[i]? with
  | none => store
  | some slot =>
    match lock_create_appointment slot p u r with
    | Except.error _ => store
    | Except.ok (slot', _) => store.set i slot'

/-- One transition of this core on the day's row set: either a
`get_slots_for_day_handler` run or a booking attempt. -/
def StepRel (s s' : List TokenSlot) : Prop :=
  (∃ caps avails, s' = get_slots_for_day_handler caps avails s) ∨
  (∃ i p u r, s' = bookAt s i p u r)

/-- Row sets reachable by this core: the empty set, then any sequence of
materialization runs and booking attempts. -/
inductive Reachable : List TokenSlot → Prop
  | init : Reachable []
  | query (caps : Nat → Nat) (avails : List AvailEntry) (s : List TokenSlot) :
      Reachable s → Reachable (get_slots_for_day_handler caps avails s)
  | book (i p u : Nat) (r : String) (s : List TokenSlot) :
      Reachable s → Reachable (bookAt s i p u r)

/-- Claim C1: a booking attempt on a full slot fails with the capacity
error and returns no new state (no mutation, no booking); on a non-full
slot it returns the slot with `allocated` incremented by exactly one and
a booking with status `booked` referencing the patient, the requesting
identity and the reason. -/
theorem lock_create_appointment_spec (token_slot : TokenSlot)
    (patient created_by : Nat) (reason_for_visit : String) :
    (token_slot.tokens_per_slot ≤ token_slot.allocated →
      lock_create_appointment token_slot patient created_by reason_for_visit =
        Except.error slot_full_message) ∧
    (token_slot.allocated < token_slot.tokens_per_slot →
      lock_create_appointment token_slot patient created_by reason_for_visit =
        Except.ok ({ token_slot with allocated := token_slot.allocated + 1 },
          { token_slot := { token_slot with allocated := token_slot.allocated + 1 },
            patient := patient, booked_by := created_by,
            reason_for_visit := reason_for_visit, status := booked_status })) := by
  constructor
  · intro h
    simp [lock_create_appointment, h]
  · intro h
    simp [lock_create_appointment, Nat.not_le.mpr h]

/-- Claim C9: slot expansion can overshoot the declared window: the
window 09:00 to 09:30 (minutes 540 to 570) with a 20-minute slot size
emits a final candidate 09:20 to 09:40 (560 to 580) whose end exceeds the
window's end, 570 < 580. -/
theorem convert_overshoots_window_end :
    convert_availability_to_slots
        [{ availability := { start_time := 540, end_time := 570 },
           slot_size_in_minutes := 20, availability_id := 7 }] =
      [((540, 560),
          { start_time := 540, end_time := 560, availability_id := 7 }),
        ((560, 580),
          { start_time := 560, end_time := 580, availability_id := 7 })] ∧
    (570 : Nat) < 580 := by
  constructor
  · rfl
  · decide

/-- The Symptom integer choices of `care.facility.models.consultation_symptom`. -/
inductive Symptom where
  | OTHERS
  | FEVER
  | SORE_THROAT
  | COUGH
  | BREATHLESSNESS
  | MYALGIA
  | ABDOMINAL_DISCOMFORT
  | VOMITING
  | SPUTUM
  | NAUSEA
  | CHEST_PAIN
  | HEMOPTYSIS
  | NASAL_DISCHARGE
  | BODY_ACHE
  | DIARRHOEA
  | PAIN
  | PEDAL_EDEMA
  | WOUND
  | CONSTIPATION
  | HEADACHE
  | BLEEDING
  | DIZZINESS
  | CHILLS
  | GENERAL_WEAKNESS
  | IRRITABILITY
  | CONFUSION
  | ABDOMINAL_PAIN
  | JOINT_PAIN
  | REDNESS_OF_EYES
  | ANOREXIA
  | NEW_LOSS_OF_TASTE
  | NEW_LOSS_OF_SMELL
deriving DecidableEq

/-- Integer code of each Symptom choice, as in the Django IntegerChoices. -/
def Symptom.code : Symptom → Nat
  | .OTHERS => 9
  | .FEVER => 2
  | .SORE_THROAT => 3
  | .COUGH => 4
  | .BREATHLESSNESS => 5
  | .MYALGIA => 6
  | .ABDOMINAL_DISCOMFORT => 7
  | .VOMITING => 8
  | .SPUTUM => 11
  | .NAUSEA => 12
  | .CHEST_PAIN => 13
  | .HEMOPTYSIS => 14
  | .NASAL_DISCHARGE => 15
  | .BODY_ACHE => 16
  | .DIARRHOEA => 17
  | .PAIN => 18
  | .PEDAL_EDEMA => 19
  | .WOUND => 20
  | .CONSTIPATION => 21
  | .HEADACHE => 22
  | .BLEEDING => 23
  | .DIZZINESS => 24
  | .CHILLS => 25
  | .GENERAL_WEAKNESS => 26
  | .IRRITABILITY => 27
  | .CONFUSION => 28
  | .ABDOMINAL_PAIN => 29
  | .JOINT_PAIN => 30
  | .REDNESS_OF_EYES => 31
  | .ANOREXIA => 32
  | .NEW_LOSS_OF_TASTE => 33
  | .NEW_LOSS_OF_SMELL => 34

/-- A ConsultationSymptom record, restricted to the fields `save` reads
plus the optional references (modelled as optional row ids). -/
structure ConsultationSymptom where
  symptom : Symptom
  other_symptom : String
  onset_date : Option Nat
  cure_date : Option Nat
  consultation : Option Nat
  created_by : Option Nat
  updated_by : Option Nat
deriving DecidableEq

def other_symptom_message : String :=
  "Other Symptom should be empty when Symptom is not OTHERS"

/-- Model of `ConsultationSymptom.save` acting on the table `db`: Python
truthiness of `self.other_symptom` is non-emptiness of the string; when
the guard fires the ValueError aborts before `super().save`, persisting
nothing, otherwise the record is persisted. -/
def ConsultationSymptom.save (cs : ConsultationSymptom)
    (db : List ConsultationSymptom) :
    Except String (List ConsultationSymptom) :=
  if cs.other_symptom ≠ "" ∧ cs.symptom ≠ Symptom.OTHERS then
    Except.error other_symptom_message
  else
    Except.ok (db ++ [cs])

/-- Claim C10: `save` raises ValueError (persisting nothing) exactly when
`other_symptom` is non-empty and `symptom` is not OTHERS; every save with
symptom OTHERS or an empty `other_symptom` appends the record; hence no
persisted record pairs a non-empty `other_symptom` with a symptom other
than OTHERS. -/
theorem consultation_symptom_save_spec :
    (∀ (cs : ConsultationSymptom) (db : List ConsultationSymptom),
      cs.other_symptom ≠ "" → cs.symptom ≠ Symptom.OTHERS →
        ConsultationSymptom.save cs db = Except.error other_symptom_message) ∧
    (∀ (cs : ConsultationSymptom) (db : List ConsultationSymptom),
      cs.symptom = Symptom.OTHERS ∨ cs.other_symptom = "" →
        ConsultationSymptom.save cs db = Except.ok (db ++ [cs])) ∧
    (∀ (cs : ConsultationSymptom) (db db' : List ConsultationSymptom),
      (∀ r ∈ db, r.other_symptom ≠ "" → r.symptom = Symptom.OTHERS) →
      ConsultationSymptom.save cs db = Except.ok db' →
        ∀ r ∈ db', r.other_symptom ≠ "" → r.symptom = Symptom.OTHERS) := by
  refine ⟨?_, ?_, ?_⟩
  · intro cs db h1 h2
    simp [ConsultationSymptom.save, h1, h2]
  · intro cs db h
    rcases h with h | h
    · simp [ConsultationSymptom.save, h]
    · simp [ConsultationSymptom.save, h]
  · intro cs db db' hdb hsave r hr hne
    by_cases hguard : cs.other_symptom ≠ "" ∧ cs.symptom ≠ Symptom.OTHERS
    · simp [ConsultationSymptom.save, hguard] at hsave
    · simp [ConsultationSymptom.save, hguard] at hsave
      subst hsave
      rcases List.mem_append.mp hr with h | h
      · exact hdb r h hne
      · have hr' : r = cs := by simpa using h
        subst hr'
        rcases not_and_or.mp hguard with h | h
        · exact absurd (not_not.mp h) hne
        · exact not_not.mp h

/-- Folding a list of prepared entries into the dict, one assignment per
entry. -/
def insertList (m : CandMap) : List (SlotKey × SlotCandidate) → CandMap
  | [] => m
  | p :: rest => insertList (dictInsert m p.1 p.2) rest

/-- The spec's description of the expander's output for one window:
consecutive candidates of the slot size duration starting at `start`,
`n` of them, with times reduced to times of day. -/
def consecutiveCandidates (aid size : Nat) : Nat → Nat → List (SlotKey × SlotCandidate)
  | _, 0 => []
  | start, n + 1 =>
    ((start % minutesPerDay, (start + size) % minutesPerDay),
      { start_time := start % minutesPerDay,
        end_time := (start + size) % minutesPerDay, availability_id := aid })
      :: consecutiveCandidates aid size (start + size) n

/-- How many candidates the loop emits from state `(current, r)` (with
`r` the remaining-iteration counter of `convertLoop`). -/
def emittedCount (end_time size : Nat) : Nat → Nat → Nat
  | _, 0 => 0
  | current, r + 1 =>
    if current < end_time then
      if r = 0 then 0 else emittedCount end_time size (current + size) r + 1
    else 0

theorem convertLoop_eq (end_time size aid : Nat) :
    ∀ (r current : Nat) (m : CandMap),
      convertLoop end_time size aid current r m =
        insertList m
          (consecutiveCandidates aid size current
            (emittedCount end_time size current r)) := by
  intro r
  induction r with
  | zero => intro current m; rfl
  | succ r ih =>
    intro current m
    by_cases h : current < end_time
    · by_cases hr : r = 0
      · simp [convertLoop, emittedCount, h, hr, consecutiveCandidates, insertList]
      · simp only [convertLoop, emittedCount, h, hr, if_true, if_false,
          if_neg hr, if_pos h]
        rw [ih]
        rfl
    · simp [convertLoop, emittedCount, h, consecutiveCandidates, insertList]

theorem consecutiveCandidates_length (aid size : Nat) :
    ∀ (n start : Nat), (consecutiveCandidates aid size start n).length = n := by
  intro n
  induction n with
  | zero => intro start; rfl
  | succ n ih => intro start; simp [consecutiveCandidates, ih]

theorem emittedCount_succ (end_time size current r : Nat) :
    emittedCount end_time size current (r + 1) =
      if current < end_time then
        if r = 0 then 0 else emittedCount end_time size (current + size) r + 1
      else 0 := rfl

theorem emittedCount_of_room (end_time size : Nat) :
    ∀ (r current : Nat), current + r * size < end_time →
      emittedCount end_time size current (r + 1) = r := by
  intro r
  induction r with
  | zero =>
    intro current h
    simp only [Nat.zero_mul, Nat.add_zero] at h
    simp [emittedCount_succ, h]
  | succ r ih =>
    intro current h
    have hcur : current < end_time := by
      have : current ≤ current + (r + 1) * size := Nat.le_add_right _ _
      omega
    have hnext : (current + size) + r * size < end_time := by
      have : current + size + r * size = current + (r + 1) * size := by ring
      omega
    rw [emittedCount_succ, if_pos hcur, if_neg (Nat.succ_ne_zero r),
      ih (current + size) hnext]

theorem emittedCount_starts_lt (end_time size : Nat) :
    ∀ (r current j : Nat), j < emittedCount end_time size current r →
      current + j * size < end_time := by
  intro r
  induction r with
  | zero => intro current j h; simp [emittedCount] at h
  | succ r ih =>
    intro current j h
    by_cases hcur : current < end_time
    · by_cases hr : r = 0
      · simp [emittedCount, hcur, hr] at h
      · simp only [emittedCount, if_pos hcur, if_neg hr] at h
        match j with
        | 0 => simpa using hcur
        | j + 1 =>
          have := ih (current + size) j (by omega)
          have hrw : current + size + j * size = current + (j + 1) * size := by
            ring
          omega
    · simp [emittedCount, hcur] at h

theorem emittedCount_stop (end_time size : Nat) :
    ∀ (r current : Nat), emittedCount end_time size current r = r - 1 ∨
      end_time ≤ current + emittedCount end_time size current r * size := by
  intro r
  induction r with
  | zero => exact fun current => Or.inl rfl
  | succ r ih =>
    intro current
    by_cases hcur : current < end_time
    · by_cases hr : r = 0
      · left; simp [emittedCount, hcur, hr]
      · simp only [emittedCount, if_pos hcur, if_neg hr]
        rcases ih (current + size) with h | h
        · left; omega
        · right
          have hrw : current + (emittedCount end_time size (current + size) r + 1)
              * size = current + size + emittedCount end_time size
              (current + size) r * size := by ring
          omega
    · right
      simp [emittedCount, hcur]
      omega

def keysOf (m : CandMap) : List SlotKey := m.map Prod.fst

theorem dictInsert_of_fresh :
    ∀ (m : CandMap) (k : SlotKey) (v : SlotCandidate), k ∉ keysOf m →
      dictInsert m k v = m ++ [(k, v)] := by
  intro m
  induction m with
  | nil => intro k v _; rfl
  | cons p rest ih =>
    intro k v h
    obtain ⟨k', v'⟩ := p
    have hk : k' ≠ k := by
      intro he
      exact h (by simp [keysOf, he])
    simp only [dictInsert, if_neg hk, List.cons_append]
    rw [ih k v (by simp [keysOf] at h ⊢; exact fun hb => h.2 hb)]

theorem insertList_of_fresh :
    ∀ (l : List (SlotKey × SlotCandidate)) (m : CandMap),
      (∀ p ∈ l, p.1 ∉ keysOf m) → (l.map Prod.fst).Nodup →
      insertList m l = m ++ l := by
  intro l
  induction l with
  | nil => intro m _ _; simp [insertList]
  | cons p rest ih =>
    intro m hfresh hnodup
    obtain ⟨k, v⟩ := p
    simp only [insertList]
    rw [dictInsert_of_fresh m k v (hfresh (k, v) (by simp))]
    rw [ih (m ++ [(k, v)])]
    · simp
    · intro q hq
      have h1 : q.1 ∉ keysOf m := hfresh q (by simp [hq])
      have h2 : q.1 ≠ k := by
        simp only [List.map_cons, List.nodup_cons] at hnodup
        intro he
        exact hnodup.1 (he ▸ List.mem_map_of_mem Prod.fst hq)
      have hkeys : keysOf (m ++ [(k, v)]) = keysOf m ++ [k] := by
        simp [keysOf]
      rw [hkeys]
      intro hmem
      rcases List.mem_append.mp hmem with hmem | hmem
      · exact h1 hmem
      · exact h2 (by simpa using hmem)
    · simp only [List.map_cons, List.nodup_cons] at hnodup
      exact hnodup.2

theorem consecutiveCandidates_mem (aid size : Nat) :
    ∀ (n start : Nat) (p : SlotKey × SlotCandidate),
      p ∈ consecutiveCandidates aid size start n →
      (∃ j, j < n ∧ p.1.1 = (start + j * size) % minutesPerDay) ∧
        p.2.availability_id = aid := by
  intro n
  induction n with
  | zero => intro start p h; simp [consecutiveCandidates] at h
  | succ n ih =>
    intro start p h
    simp only [consecutiveCandidates, List.mem_cons] at h
    rcases h with h | h
    · subst h
      exact ⟨⟨0, Nat.succ_pos n, by simp⟩, rfl⟩
    · obtain ⟨⟨j, hj, hkey⟩, haid⟩ := ih (start + size) p h
      refine ⟨⟨j + 1, by omega, ?_⟩, haid⟩
      rw [hkey]
      have : start + size + j * size = start + (j + 1) * size := by ring
      rw [this]

theorem consecutiveCandidates_keys_nodup (aid size : Nat) (hsize : 0 < size) :
    ∀ (n start : Nat), (∀ j, j < n → start + j * size < minutesPerDay) →
      ((consecutiveCandidates aid size start n).map Prod.fst).Nodup := by
  intro n
  induction n with
  | zero => intro start _; simp [consecutiveCandidates]
  | succ n ih =>
    intro start h
    simp only [consecutiveCandidates, List.map_cons, List.nodup_cons]
    constructor
    · intro hmem
      obtain ⟨p, hp, hpk⟩ := List.mem_map.mp hmem
      obtain ⟨⟨j, hj, hkey⟩, _⟩ :=
        consecutiveCandidates_mem aid size n (start + size) p hp
      have hfst : p.1.1 = start % minutesPerDay := by rw [hpk]
      have h0 : start < minutesPerDay := by
        have := h 0 (Nat.succ_pos n)
        simpa using this
      have hj1 : start + (j + 1) * size < minutesPerDay := h (j + 1) (by omega)
      have hrw : start + size + j * size = start + (j + 1) * size := by ring
      rw [hkey, hrw, Nat.mod_eq_of_lt hj1] at hfst
      rw [Nat.mod_eq_of_lt h0] at hfst
      have : (j + 1) * size = j * size + size := by ring
      omega
    · apply ih (start + size)
      intro j hj
      have hrw : start + size + j * size = start + (j + 1) * size := by ring
      rw [hrw]
      exact h (j + 1) (by omega)

/-- Closed form of a single-entry expansion: provided the window's end
lies on the reference day (it is parsed from a wall-clock time string)
and the slot size is positive, the dict built by the loop is exactly the
list of consecutive candidates it emits, in emission order. -/
theorem convert_single_window (start_t end_t size aid : Nat)
    (hsize : 0 < size) (hday : end_t ≤ minutesPerDay) :
    convert_availability_to_slots
        [{ availability := { start_time := start_t, end_time := end_t },
           slot_size_in_minutes := size, availability_id := aid }] =
      consecutiveCandidates aid size start_t
        (emittedCount end_t size start_t 30) := by
  have h1 : convert_availability_to_slots
      [{ availability := { start_time := start_t, end_time := end_t },
         slot_size_in_minutes := size, availability_id := aid }] =
      convertLoop end_t size aid start_t 30 [] := rfl
  rw [h1, convertLoop_eq]
  rw [insertList_of_fresh]
  · simp
  · intro p _
    simp [keysOf]
  · apply consecutiveCandidates_keys_nodup aid size hsize
    intro j hj
    have := emittedCount_starts_lt end_t size 30 start_t j hj
    omega

/-- Claim C5 (corrected form not needed; confirmed): for every window,
expansion emits the consecutive candidates of `size` minutes starting at
`start_t`, one while-iteration per candidate, each emitted start strictly
preceding `end_t`, and generation stops only at the failsafe cap or when
the running start no longer precedes `end_t`; in particular the window
09:00 to 10:00 with 20-minute slots yields exactly the candidates
09:00-09:20, 09:20-09:40 and 09:40-10:00. -/
theorem convert_window_consecutive (start_t end_t size aid : Nat)
    (hsize : 0 < size) (hday : end_t ≤ minutesPerDay) :
    convert_availability_to_slots
        [{ availability := { start_time := start_t, end_time := end_t },
           slot_size_in_minutes := size, availability_id := aid }] =
      consecutiveCandidates aid size start_t
        (emittedCount end_t size start_t 30) ∧
    (∀ j, j < emittedCount end_t size start_t 30 →
      start_t + j * size < end_t) ∧
    (emittedCount end_t size start_t 30 = 29 ∨
      end_t ≤ start_t + emittedCount end_t size start_t 30 * size) ∧
    convert_availability_to_slots
        [{ availability := { start_time := 540, end_time := 600 },
           slot_size_in_minutes := 20, availability_id := 5 }] =
      [((540, 560),
          { start_time := 540, end_time := 560, availability_id := 5 }),
        ((560, 580),
          { start_time := 560, end_time := 580, availability_id := 5 }),
        ((580, 600),
          { start_time := 580, end_time := 600, availability_id := 5 })] := by
  refine ⟨convert_single_window start_t end_t size aid hsize hday, ?_, ?_, ?_⟩
  · intro j hj
    exact emittedCount_starts_lt end_t size 30 start_t j hj
  · exact emittedCount_stop end_t size 30 start_t
  · rfl

/-- Witness for C5 at the window 09:00 to 10:00 with 20-minute slots. -/
theorem convert_window_consecutive_witness :
    convert_availability_to_slots
        [{ availability := { start_time := 540, end_time := 600 },
           slot_size_in_minutes := 20, availability_id := 5 }] =
      consecutiveCandidates 5 20 540 (emittedCount 600 20 540 30) ∧
    (∀ j, j < emittedCount 600 20 540 30 → 540 + j * 20 < 600) ∧
    (emittedCount 600 20 540 30 = 29 ∨
      600 ≤ 540 + emittedCount 600 20 540 30 * 20) ∧
    convert_availability_to_slots
        [{ availability := { start_time := 540, end_time := 600 },
           slot_size_in_minutes := 20, availability_id := 5 }] =
      [((540, 560),
          { start_time := 540, end_time := 560, availability_id := 5 }),
        ((560, 580),
          { start_time := 560, end_time := 580, availability_id := 5 }),
        ((580, 600),
          { start_time := 580, end_time := 600, availability_id := 5 })] :=
  convert_window_consecutive 540 600 20 5 (by decide) (by decide)

/-- Counterexample to claim C3 as stated: the window 09:00 to 23:00
(minutes 540 to 1380) with 20-minute slots spans more than 30 slot sizes,
yet expansion yields 29 candidates, not 30: the loop breaks when the
counter reaches 30 before emitting the 30th candidate. -/
theorem convert_cap_counterexample :
    30 * 20 < 1380 - 540 ∧
    (convert_availability_to_slots
        [{ availability := { start_time := 540, end_time := 1380 },
           slot_size_in_minutes := 20, availability_id := 1 }]).length = 29 ∧
    (convert_availability_to_slots
        [{ availability := { start_time := 540, end_time := 1380 },
           slot_size_in_minutes := 20, availability_id := 1 }]).length ≠ 30 := by
  refine ⟨by decide, ?_, ?_⟩ <;> decide

/-- Claim C3 as amended: for every window of positive slot size ending on
the reference day whose length exceeds 30 slot sizes, expansion generates
exactly 29 candidate slots, stopping at the safety bound regardless of
whether the end has been reached. -/
theorem convert_cap_truncates (start_t end_t size aid : Nat)
    (hsize : 0 < size) (hday : end_t ≤ minutesPerDay)
    (hlong : 30 * size < end_t - start_t) :
    (convert_availability_to_slots
        [{ availability := { start_time := start_t, end_time := end_t },
           slot_size_in_minutes := size, availability_id := aid }]).length =
      29 := by
  rw [convert_single_window start_t end_t size aid hsize hday]
  rw [consecutiveCandidates_length]
  have hroom : start_t + 29 * size < end_t := by omega
  have h30 : (30 : Nat) = 29 + 1 := rfl
  rw [h30, emittedCount_of_room end_t size 29 start_t hroom]

/-- Witness for the amended C3 at the window 00:00 to 24:00 with
20-minute slots. -/
theorem convert_cap_truncates_witness :
    (convert_availability_to_slots
        [{ availability := { start_time := 0, end_time := 1440 },
           slot_size_in_minutes := 20, availability_id := 3 }]).length =
      29 :=
  convert_cap_truncates 0 1440 20 3 (by decide) (by decide) (by decide)

/-- The value of the last entry of `l` carrying key `k`, if any: the
value an in-order sequence of dict assignments leaves at `k`. -/
def lastFind : List (SlotKey × SlotCandidate) → SlotKey → Option SlotCandidate
  | [], _ => none
  | (k', v) :: rest, k =>
    match lastFind rest k with
    | some w => some w
    | none => if k' = k then some v else none

theorem dictFind_dictInsert (m : CandMap) (k' : SlotKey) (v : SlotCandidate)
    (k : SlotKey) :
    dictFind (dictInsert m k' v) k = if k' = k then some v else dictFind m k := by
  induction m with
  | nil => rfl
  | cons p rest ih =>
    obtain ⟨k0, v0⟩ := p
    by_cases h0 : k0 = k'
    · subst h0
      simp only [dictInsert, if_pos rfl]
      by_cases hk : k0 = k
      · simp [dictFind, hk]
      · simp [dictFind, hk]
    · simp only [dictInsert, if_neg h0, dictFind]
      by_cases hk : k0 = k
      · subst hk
        have : k' ≠ k0 := fun he => h0 he.symm
        simp [dictFind, this]
      · simp [dictFind, hk, ih]

theorem dictFind_insertList :
    ∀ (l : List (SlotKey × SlotCandidate)) (m : CandMap) (k : SlotKey),
      dictFind (insertList m l) k =
        match lastFind l k with
        | some v => some v
        | none => dictFind m k := by
  intro l
  induction l with
  | nil => intro m k; rfl
  | cons p rest ih =>
    intro m k
    obtain ⟨k', v⟩ := p
    simp only [insertList, lastFind]
    rw [ih]
    cases hrest : lastFind rest k with
    | some w => rfl
    | none =>
      rw [dictFind_dictInsert]
      by_cases hk : k' = k
      · simp [hk]
      · simp [hk]

theorem lastFind_mem :
    ∀ (l : List (SlotKey × SlotCandidate)) (k : SlotKey) (c : SlotCandidate),
      lastFind l k = some c → ∃ k', (k', c) ∈ l := by
  intro l
  induction l with
  | nil => intro k c h; simp [lastFind] at h
  | cons p rest ih =>
    intro k c h
    obtain ⟨k', v⟩ := p
    simp only [lastFind] at h
    cases hrest : lastFind rest k with
    | some w =>
      rw [hrest] at h
      have hw : some w = some c := by simpa using h
      obtain ⟨k0, hk0⟩ := ih k c (by rw [hrest, hw])
      exact ⟨k0, List.mem_cons_of_mem _ hk0⟩
    | none =>
      rw [hrest] at h
      have h' : (if k' = k then some v else none) = some c := by simpa using h
      by_cases hk : k' = k
      · rw [if_pos hk] at h'
        exact ⟨k', by simp [Option.some_inj.mp h']⟩
      · rw [if_neg hk] at h'
        exact absurd h' (by simp)

/-- Expansion of the second availability entry is the same list of
assignments whatever dict it starts from, so its last write at a shared
key wins in the two-entry fold. -/
theorem convert_two_entries (a1 a2 : AvailEntry) :
    convert_availability_to_slots [a1, a2] =
      insertList (convert_availability_to_slots [a1])
        (consecutiveCandidates a2.availability_id a2.slot_size_in_minutes
          a2.availability.start_time
          (emittedCount a2.availability.end_time a2.slot_size_in_minutes
            a2.availability.start_time 30)) := by
  have h : convert_availability_to_slots [a1, a2] =
      convertLoop a2.availability.end_time a2.slot_size_in_minutes
        a2.availability_id a2.availability.start_time 30
        (convert_availability_to_slots [a1]) := rfl
  rw [h, convertLoop_eq]

/-- Claim C7: when two availabilities processed in sequence both emit the
same time-of-day range key, the final dict holds the later-processed
availability's entry at that key, availability id included
(last-write-wins). -/
theorem convert_last_write_wins (a1 a2 : AvailEntry) (k : SlotKey)
    (c : SlotCandidate)
    (_h1 : (dictFind (convert_availability_to_slots [a1]) k).isSome)
    (h2 : dictFind (convert_availability_to_slots [a2]) k = some c) :
    dictFind (convert_availability_to_slots [a1, a2]) k = some c ∧
      c.availability_id = a2.availability_id := by
  have hsingle : convert_availability_to_slots [a2] =
      insertList []
        (consecutiveCandidates a2.availability_id a2.slot_size_in_minutes
          a2.availability.start_time
          (emittedCount a2.availability.end_time a2.slot_size_in_minutes
            a2.availability.start_time 30)) := by
    have h : convert_availability_to_slots [a2] =
        convertLoop a2.availability.end_time a2.slot_size_in_minutes
          a2.availability_id a2.availability.start_time 30 [] := rfl
    rw [h, convertLoop_eq]
  rw [hsingle, dictFind_insertList] at h2
  have hlast : lastFind
      (consecutiveCandidates a2.availability_id a2.slot_size_in_minutes
        a2.availability.start_time
        (emittedCount a2.availability.end_time a2.slot_size_in_minutes
          a2.availability.start_time 30)) k = some c := by
    cases hl : lastFind
        (consecutiveCandidates a2.availability_id a2.slot_size_in_minutes
          a2.availability.start_time
          (emittedCount a2.availability.end_time a2.slot_size_in_minutes
            a2.availability.start_time 30)) k with
    | some w =>
      rw [hl] at h2
      have hw : some w = some c := by simpa using h2
      exact hw
    | none =>
      rw [hl] at h2
      simp [dictFind] at h2
  constructor
  · rw [convert_two_entries, dictFind_insertList, hlast]
  · obtain ⟨k', hmem⟩ := lastFind_mem _ k c hlast
    exact (consecutiveCandidates_mem _ _ _ _ (k', c) hmem).2

/-- Witness for C7: the windows 09:00-10:00 (availability 1) and
09:00-09:40 (availability 2) both emit the key 09:00-09:20; the merged
dict keeps availability 2's entry there. -/
theorem convert_last_write_wins_witness :
    dictFind
        (convert_availability_to_slots
          [{ availability := { start_time := 540, end_time := 600 },
             slot_size_in_minutes := 20, availability_id := 1 },
           { availability := { start_time := 540, end_time := 580 },
             slot_size_in_minutes := 20, availability_id := 2 }])
        (540, 560) =
      some { start_time := 540, end_time := 560, availability_id := 2 } ∧
    ({ start_time := 540, end_time := 560, availability_id := 2 } :
      SlotCandidate).availability_id = 2 :=
  convert_last_write_wins
    { availability := { start_time := 540, end_time := 600 },
      slot_size_in_minutes := 20, availability_id := 1 }
    { availability := { start_time := 540, end_time := 580 },
      slot_size_in_minutes := 20, availability_id := 2 }
    (540, 560)
    { start_time := 540, end_time := 560, availability_id := 2 }
    (by decide) (by decide)

/-- Dict well-formedness: each key appears in at most one entry, as in a
Python dict. -/
def NoDupKeys (m : CandMap) : Prop := (keysOf m).Nodup

/-- Key-value coherence of the expander's dict: every entry's key is the
pair of times stored in its value, since both are built from the same
running datetimes. -/
def KeyCoherent (m : CandMap) : Prop :=
  ∀ p ∈ m, p.1 = (p.2.start_time, p.2.end_time)

theorem dictFind_isSome_of_mem :
    ∀ (m : CandMap) (k : SlotKey) (c : SlotCandidate), (k, c) ∈ m →
      ∃ c', dictFind m k = some c' := by
  intro m
  induction m with
  | nil => intro k c h; simp at h
  | cons p rest ih =>
    intro k c h
    obtain ⟨k', v⟩ := p
    by_cases hk : k' = k
    · exact ⟨v, by simp [dictFind, hk]⟩
    · rcases List.mem_cons.mp h with h | h
      · exact absurd (congrArg Prod.fst h.symm) hk
      · obtain ⟨c', hc'⟩ := ih k c h
        exact ⟨c', by simp [dictFind, hk, hc']⟩

theorem dictFind_eq_some_of_mem :
    ∀ (m : CandMap), NoDupKeys m →
      ∀ (k : SlotKey) (c : SlotCandidate), (k, c) ∈ m →
        dictFind m k = some c := by
  intro m
  induction m with
  | nil => intro _ k c h; simp at h
  | cons p rest ih =>
    intro hm k c h
    obtain ⟨k', v⟩ := p
    simp only [NoDupKeys, keysOf, List.map_cons, List.nodup_cons] at hm
    rcases List.mem_cons.mp h with h | h
    · have h1 : k' = k := (congrArg Prod.fst h).symm
      have h2 : v = c := (congrArg Prod.snd h).symm
      simp [dictFind, h1, h2]
    · have hk : k' ≠ k := by
        intro he
        exact hm.1 (he ▸ List.mem_map_of_mem Prod.fst h)
      simp only [dictFind, if_neg hk]
      exact ih hm.2 k c h

theorem mem_dictPop :
    ∀ (m : CandMap), NoDupKeys m →
      ∀ (k0 k : SlotKey) (c : SlotCandidate),
        ((k, c) ∈ dictPop m k0 ↔ (k, c) ∈ m ∧ k ≠ k0) := by
  intro m
  induction m with
  | nil => intro _ k0 k c; simp [dictPop]
  | cons p rest ih =>
    intro hm k0 k c
    obtain ⟨k', v⟩ := p
    simp only [NoDupKeys, keysOf, List.map_cons, List.nodup_cons] at hm
    by_cases hk : k' = k0
    · subst hk
      simp only [dictPop, if_pos rfl]
      constructor
      · intro h
        refine ⟨List.mem_cons_of_mem _ h, ?_⟩
        intro he
        exact hm.1 (he ▸ List.mem_map_of_mem Prod.fst h)
      · intro ⟨h, hne⟩
        rcases List.mem_cons.mp h with h | h
        · exact absurd (congrArg Prod.fst h) hne
        · exact h
    · simp only [dictPop, if_neg hk]
      constructor
      · intro h
        rcases List.mem_cons.mp h with h | h
        · have h1 : k = k' := congrArg Prod.fst h
          refine ⟨by rw [h]; exact List.mem_cons_self .., ?_⟩
          intro he
          exact hk (h1.symm.trans he)
        · obtain ⟨h1, h2⟩ := (ih hm.2 k0 k c).mp h
          exact ⟨List.mem_cons_of_mem _ h1, h2⟩
      · intro ⟨h, hne⟩
        rcases List.mem_cons.mp h with h | h
        · exact h ▸ List.mem_cons_self ..
        · exact List.mem_cons_of_mem _ ((ih hm.2 k0 k c).mpr ⟨h, hne⟩)

theorem keysOf_dictPop_sublist :
    ∀ (m : CandMap) (k : SlotKey), (keysOf (dictPop m k)).Sublist (keysOf m) := by
  intro m
  induction m with
  | nil => intro k; simp [dictPop, keysOf]
  | cons p rest ih =>
    intro k
    obtain ⟨k', v⟩ := p
    by_cases hk : k' = k
    · simp only [dictPop, if_pos hk, keysOf, List.map_cons]
      exact List.sublist_cons_of_sublist _ (List.Sublist.refl _)
    · simp only [dictPop, if_neg hk, keysOf, List.map_cons]
      exact List.Sublist.cons₂ _ (ih k)

theorem NoDupKeys_dictPop (m : CandMap) (k : SlotKey) (hm : NoDupKeys m) :
    NoDupKeys (dictPop m k) :=
  (keysOf_dictPop_sublist m k).nodup hm

theorem keysOf_dictInsert :
    ∀ (m : CandMap) (k : SlotKey) (v : SlotCandidate),
      keysOf (dictInsert m k v) =
        if k ∈ keysOf m then keysOf m else keysOf m ++ [k] := by
  intro m
  induction m with
  | nil => intro k v; simp [dictInsert, keysOf]
  | cons p rest ih =>
    intro k v
    obtain ⟨k', v'⟩ := p
    by_cases hk : k' = k
    · simp [dictInsert, hk, keysOf]
    · have hL : keysOf (dictInsert ((k', v') :: rest) k v) =
          k' :: keysOf (dictInsert rest k v) := by
        simp [dictInsert, if_neg hk, keysOf]
      have hC : keysOf ((k', v') :: rest) = k' :: keysOf rest := by
        simp [keysOf]
      rw [hL, hC, ih k v]
      by_cases hmem : k ∈ keysOf rest
      · rw [if_pos hmem, if_pos (List.mem_cons_of_mem _ hmem)]
      · have hk' : k ∉ (k' :: keysOf rest) := by
          intro hcon
          rcases List.mem_cons.mp hcon with he | he
          · exact hk he.symm
          · exact hmem he
        rw [if_neg hmem, if_neg hk']
        rfl

theorem NoDupKeys_dictInsert (m : CandMap) (k : SlotKey) (v : SlotCandidate)
    (hm : NoDupKeys m) : NoDupKeys (dictInsert m k v) := by
  have hm' : (keysOf m).Nodup := hm
  unfold NoDupKeys
  rw [keysOf_dictInsert]
  by_cases hmem : k ∈ keysOf m
  · simpa [hmem] using hm'
  · simp only [if_neg hmem]
    simp [List.nodup_append, hm', hmem]

theorem NoDupKeys_insertList :
    ∀ (l : List (SlotKey × SlotCandidate)) (m : CandMap),
      NoDupKeys m → NoDupKeys (insertList m l) := by
  intro l
  induction l with
  | nil => intro m hm; exact hm
  | cons p rest ih =>
    intro m hm
    exact ih _ (NoDupKeys_dictInsert m p.1 p.2 hm)

theorem NoDupKeys_convertLoop (e s a r current : Nat) (m : CandMap)
    (hm : NoDupKeys m) : NoDupKeys (convertLoop e s a current r m) := by
  rw [convertLoop_eq]
  exact NoDupKeys_insertList _ m hm

theorem NoDupKeys_convert_aux :
    ∀ (avails : List AvailEntry) (m : CandMap), NoDupKeys m →
      NoDupKeys (avails.foldl
        (fun slots a =>
          convertLoop a.availability.end_time a.slot_size_in_minutes
            a.availability_id a.availability.start_time 30 slots) m) := by
  intro avails
  induction avails with
  | nil => intro m hm; simpa using hm
  | cons a rest ih =>
    intro m hm
    simp only [List.foldl_cons]
    exact ih _ (NoDupKeys_convertLoop _ _ _ _ _ m hm)

theorem NoDupKeys_convert (avails : List AvailEntry) :
    NoDupKeys (convert_availability_to_slots avails) :=
  NoDupKeys_convert_aux avails [] (by simp [NoDupKeys, keysOf])

theorem KeyCoherent_dictInsert (m : CandMap) (k : SlotKey) (v : SlotCandidate)
    (hm : KeyCoherent m) (hv : k = (v.start_time, v.end_time)) :
    KeyCoherent (dictInsert m k v) := by
  induction m with
  | nil =>
    intro p hp
    simp only [dictInsert, List.mem_singleton] at hp
    subst hp
    exact hv
  | cons q rest ih =>
    obtain ⟨k', v'⟩ := q
    intro p hp
    by_cases hk : k' = k
    · simp only [dictInsert, if_pos hk] at hp
      rcases List.mem_cons.mp hp with h | h
      · subst h; exact hv
      · exact hm p (List.mem_cons_of_mem _ h)
    · simp only [dictInsert, if_neg hk] at hp
      rcases List.mem_cons.mp hp with h | h
      · subst h; exact hm (k', v') (List.mem_cons_self ..)
      · exact ih (fun q hq => hm q (List.mem_cons_of_mem _ hq)) p h

theorem KeyCoherent_insertList :
    ∀ (l : List (SlotKey × SlotCandidate)) (m : CandMap),
      KeyCoherent m → (∀ p ∈ l, p.1 = (p.2.start_time, p.2.end_time)) →
      KeyCoherent (insertList m l) := by
  intro l
  induction l with
  | nil => intro m hm _; exact hm
  | cons p rest ih =>
    intro m hm hl
    exact ih _ (KeyCoherent_dictInsert m p.1 p.2 hm (hl p (by simp)))
      (fun q hq => hl q (List.mem_cons_of_mem _ hq))

theorem consecutiveCandidates_coherent (aid size : Nat) :
    ∀ (n start : Nat) (p : SlotKey × SlotCandidate),
      p ∈ consecutiveCandidates aid size start n →
      p.1 = (p.2.start_time, p.2.end_time) := by
  intro n
  induction n with
  | zero => intro start p h; simp [consecutiveCandidates] at h
  | succ n ih =>
    intro start p h
    simp only [consecutiveCandidates, List.mem_cons] at h
    rcases h with h | h
    · subst h; rfl
    · exact ih (start + size) p h

theorem KeyCoherent_convertLoop (e s a r current : Nat) (m : CandMap)
    (hm : KeyCoherent m) : KeyCoherent (convertLoop e s a current r m) := by
  rw [convertLoop_eq]
  exact KeyCoherent_insertList _ m hm
    (consecutiveCandidates_coherent a s _ current)

theorem KeyCoherent_convert_aux :
    ∀ (avails : List AvailEntry) (m : CandMap), KeyCoherent m →
      KeyCoherent (avails.foldl
        (fun slots a =>
          convertLoop a.availability.end_time a.slot_size_in_minutes
            a.availability_id a.availability.start_time 30 slots) m) := by
  intro avails
  induction avails with
  | nil => intro m hm; simpa using hm
  | cons a rest ih =>
    intro m hm
    simp only [List.foldl_cons]
    exact ih _ (KeyCoherent_convertLoop _ _ _ _ _ m hm)

theorem KeyCoherent_convert (avails : List AvailEntry) :
    KeyCoherent (convert_availability_to_slots avails) :=
  KeyCoherent_convert_aux avails [] (by intro p hp; simp at hp)

theorem NoDupKeys_reconStep (m : CandMap) (s : TokenSlot) (hm : NoDupKeys m) :
    NoDupKeys (reconStep m s) := by
  unfold reconStep
  cases dictFind m (slotKeyOf s) with
  | none => exact hm
  | some c =>
    by_cases h : c.availability_id = s.availability_id
    · simpa [h] using NoDupKeys_dictPop m (slotKeyOf s) hm
    · simpa [h] using hm

theorem reconStep_eq_none (m : CandMap) (s : TokenSlot)
    (h : dictFind m (slotKeyOf s) = none) : reconStep m s = m := by
  unfold reconStep
  rw [h]

theorem reconStep_eq_some (m : CandMap) (s : TokenSlot) (c' : SlotCandidate)
    (h : dictFind m (slotKeyOf s) = some c') :
    reconStep m s =
      if c'.availability_id = s.availability_id then dictPop m (slotKeyOf s)
      else m := by
  unfold reconStep
  rw [h]

theorem mem_reconStep (m : CandMap) (hm : NoDupKeys m) (s : TokenSlot)
    (k : SlotKey) (c : SlotCandidate) :
    (k, c) ∈ reconStep m s ↔
      (k, c) ∈ m ∧
        ¬(slotKeyOf s = k ∧ s.availability_id = c.availability_id) := by
  cases hfind : dictFind m (slotKeyOf s) with
  | none =>
    rw [reconStep_eq_none m s hfind]
    constructor
    · intro h
      refine ⟨h, ?_⟩
      rintro ⟨hkey, _⟩
      obtain ⟨c', hc'⟩ := dictFind_isSome_of_mem m k c h
      rw [hkey] at hfind
      rw [hfind] at hc'
      exact Option.noConfusion hc'
    · exact fun h => h.1
  | some c' =>
    rw [reconStep_eq_some m s c' hfind]
    by_cases haid : c'.availability_id = s.availability_id
    · rw [if_pos haid]
      rw [mem_dictPop m hm (slotKeyOf s) k c]
      constructor
      · rintro ⟨hmem, hne⟩
        refine ⟨hmem, ?_⟩
        rintro ⟨hkey, _⟩
        exact hne hkey.symm
      · rintro ⟨hmem, hnot⟩
        refine ⟨hmem, ?_⟩
        intro hke
        have hkc : dictFind m k = some c := dictFind_eq_some_of_mem m hm k c hmem
        rw [hke] at hkc
        rw [hfind] at hkc
        have hcc : c' = c := Option.some_inj.mp hkc
        exact hnot ⟨hke.symm, by rw [← hcc]; exact haid.symm⟩
    · rw [if_neg haid]
      constructor
      · intro h
        refine ⟨h, ?_⟩
        rintro ⟨hkey, haid2⟩
        have hkc : dictFind m k = some c := dictFind_eq_some_of_mem m hm k c h
        rw [← hkey] at hkc
        rw [hfind] at hkc
        have hcc : c' = c := Option.some_inj.mp hkc
        exact haid (by rw [hcc]; exact haid2.symm)
      · exact fun h => h.1

theorem mem_reconcileSlots :
    ∀ (store : List TokenSlot) (m : CandMap), NoDupKeys m →
      ∀ (k : SlotKey) (c : SlotCandidate),
        ((k, c) ∈ reconcileSlots store m ↔
          (k, c) ∈ m ∧
            ∀ s ∈ store,
              ¬(slotKeyOf s = k ∧
                s.availability_id = c.availability_id)) := by
  intro store
  induction store with
  | nil =>
    intro m hm k c
    simp [reconcileSlots]
  | cons s rest ih =>
    intro m hm k c
    rw [reconcileSlots, ih _ (NoDupKeys_reconStep m s hm),
      mem_reconStep m hm s k c]
    simp only [List.forall_mem_cons]
    tauto

/-- Claim C6: a candidate entry survives reconciliation against the
existing rows exactly when no existing row matches both its time-of-day
key and its availability id, so a row matching the key with a different
source availability leaves the candidate in place; and the handler
creates exactly one row per surviving entry, appended to the existing
rows. -/
theorem reconcile_removal_spec (caps : Nat → Nat) (avails : List AvailEntry)
    (store : List TokenSlot) :
    (∀ (k : SlotKey) (c : SlotCandidate),
      (k, c) ∈ reconcileSlots store (convert_availability_to_slots avails) ↔
        ((k, c) ∈ convert_availability_to_slots avails ∧
          ∀ s ∈ store,
            ¬(slotKeyOf s = k ∧
              s.availability_id = c.availability_id))) ∧
    get_slots_for_day_handler caps avails store =
      store ++
        (reconcileSlots store (convert_availability_to_slots avails)).map
          (fun p => materializeSlot caps p.2) :=
  ⟨fun k c =>
    mem_reconcileSlots store (convert_availability_to_slots avails)
      (NoDupKeys_convert avails) k c, rfl⟩

/-- Claim C4: running the day query twice with the same schedules and no
intervening booking leaves the row set identical: on the second run the
reconciler removes every candidate (each was either already matched
before the first run or created by it), so no new row is created. -/
theorem get_slots_for_day_idempotent (caps : Nat → Nat)
    (avails : List AvailEntry) (store : List TokenSlot) :
    reconcileSlots (get_slots_for_day_handler caps avails store)
        (convert_availability_to_slots avails) = [] ∧
    get_slots_for_day_handler caps avails
        (get_slots_for_day_handler caps avails store) =
      get_slots_for_day_handler caps avails store := by
  have hnd := NoDupKeys_convert avails
  have hco := KeyCoherent_convert avails
  have hempty : reconcileSlots (get_slots_for_day_handler caps avails store)
      (convert_availability_to_slots avails) = [] := by
    apply List.eq_nil_iff_forall_not_mem.mpr
    rintro ⟨k, c⟩ hmem
    rw [mem_reconcileSlots _ _ hnd] at hmem
    obtain ⟨hkc, hall⟩ := hmem
    by_cases hex : ∀ s ∈ store,
        ¬(slotKeyOf s = k ∧ s.availability_id = c.availability_id)
    · have hrem : (k, c) ∈
          reconcileSlots store (convert_availability_to_slots avails) :=
        (mem_reconcileSlots store _ hnd k c).mpr ⟨hkc, hex⟩
      have hcreated : materializeSlot caps c ∈
          (reconcileSlots store (convert_availability_to_slots avails)).map
            (fun p => materializeSlot caps p.2) :=
        List.mem_map_of_mem (fun p => materializeSlot caps p.2) hrem
      have hin : materializeSlot caps c ∈
          get_slots_for_day_handler caps avails store :=
        List.mem_append_right store hcreated
      apply hall _ hin
      constructor
      · have hk := hco (k, c) hkc
        simp only [slotKeyOf, materializeSlot]
        exact hk.symm
      · rfl
    · push_neg at hex
      obtain ⟨s, hs, hmatch⟩ := hex
      exact hall s (List.mem_append_left _ hs) hmatch
  refine ⟨hempty, ?_⟩
  have h2 : get_slots_for_day_handler caps avails
      (get_slots_for_day_handler caps avails store) =
      get_slots_for_day_handler caps avails store ++
        (reconcileSlots (get_slots_for_day_handler caps avails store)
          (convert_availability_to_slots avails)).map
          (fun p => materializeSlot caps p.2) := rfl
  rw [h2, hempty]
  simp

theorem mem_of_getElem?_some {l : List TokenSlot} {n : Nat} {a : TokenSlot}
    (h : l[n]? = some a) : a ∈ l := by
  obtain ⟨hlt, he⟩ := List.getElem?_eq_some.mp h
  exact he ▸ List.getElem_mem hlt

theorem bookAt_eq_of_none (s : List TokenSlot) (i p u : Nat) (r : String)
    (h : s[i]? = none) : bookAt s i p u r = s := by
  unfold bookAt
  rw [h]

theorem bookAt_eq_of_full (s : List TokenSlot) (i p u : Nat) (r : String)
    (slot : TokenSlot) (h : s[i]? = some slot)
    (hfull : slot.tokens_per_slot ≤ slot.allocated) :
    bookAt s i p u r = s := by
  unfold bookAt
  rw [h]
  simp [lock_create_appointment, hfull]

theorem bookAt_eq_of_open (s : List TokenSlot) (i p u : Nat) (r : String)
    (slot : TokenSlot) (h : s[i]? = some slot)
    (hopen : ¬slot.tokens_per_slot ≤ slot.allocated) :
    bookAt s i p u r =
      s.set i { slot with allocated := slot.allocated + 1 } := by
  unfold bookAt
  rw [h]
  simp [lock_create_appointment, hopen]

/-- Claim C2: in every state reachable from the empty row set by
materialization runs and booking attempts, every slot satisfies
`0 ≤ allocated ≤ tokens_per_slot`; and every single transition of this
core keeps each existing row at its index, either unchanged or with
`allocated` incremented by exactly one (never decremented, never
deleted). -/
theorem booking_core_invariant :
    (∀ s, Reachable s → ∀ slot ∈ s,
      0 ≤ slot.allocated ∧ slot.allocated ≤ slot.tokens_per_slot) ∧
    (∀ s s', StepRel s s' → ∀ (j : Nat) (slot : TokenSlot),
      s[j]? = some slot →
      ∃ slot', s'[j]? = some slot' ∧
        (slot' = slot ∨
          slot' = { slot with allocated := slot.allocated + 1 })) := by
  constructor
  · intro s h
    induction h with
    | init => intro slot hs; simp at hs
    | query caps avails s _ ih =>
      intro slot hmem
      rcases List.mem_append.mp hmem with h | h
      · exact ih slot h
      · obtain ⟨p, _, hp⟩ := List.mem_map.mp h
        rw [← hp]
        exact ⟨Nat.zero_le _, Nat.zero_le _⟩
    | book i p u r s _ ih =>
      intro slot hmem
      cases hidx : s[i]? with
      | none => exact ih slot ((bookAt_eq_of_none s i p u r hidx) ▸ hmem)
      | some slot0 =>
        by_cases hfull : slot0.tokens_per_slot ≤ slot0.allocated
        · exact ih slot ((bookAt_eq_of_full s i p u r slot0 hidx hfull) ▸ hmem)
        · rw [bookAt_eq_of_open s i p u r slot0 hidx hfull] at hmem
          rcases List.mem_or_eq_of_mem_set hmem with h | h
          · exact ih slot h
          · subst h
            exact ⟨Nat.zero_le _, by simpa using Nat.lt_of_not_le hfull⟩
  · intro s s' hstep j slot hj
    have hjlt : j < s.length := (List.getElem?_eq_some.mp hj).1
    rcases hstep with ⟨caps, avails, hq⟩ | ⟨i, p, u, r, hb⟩
    · refine ⟨slot, ?_, Or.inl rfl⟩
      rw [hq]
      unfold get_slots_for_day_handler
      rw [List.getElem?_append, if_pos hjlt]
      exact hj
    · cases hidx : s[i]? with
      | none => exact ⟨slot, by rw [hb, bookAt_eq_of_none s i p u r hidx]; exact hj,
          Or.inl rfl⟩
      | some slot0 =>
        by_cases hfull : slot0.tokens_per_slot ≤ slot0.allocated
        · exact ⟨slot,
            by rw [hb, bookAt_eq_of_full s i p u r slot0 hidx hfull]; exact hj,
            Or.inl rfl⟩
        · by_cases hij : i = j
          · subst hij
            have hslot : slot0 = slot := by
              rw [hidx] at hj
              exact Option.some_inj.mp hj
            subst hslot
            refine ⟨{ slot0 with allocated := slot0.allocated + 1 }, ?_, Or.inr rfl⟩
            rw [hb, bookAt_eq_of_open s i p u r slot0 hidx hfull]
            exact List.getElem?_set_self hjlt
          · refine ⟨slot, ?_, Or.inl rfl⟩
            rw [hb, bookAt_eq_of_open s i p u r slot0 hidx hfull]
            rw [List.getElem?_set_ne hij]
            exact hj

/-- Execution of serialized booking attempts that all operate on
previously fetched snapshots of the TokenSlot row.  In the source,
`create_appointment` resolves the row with `self.get_object()` before
`lock_create_appointment` is called, and inside the lock
`token_slot.allocated` is the in-memory attribute of that object: nothing
re-reads the row from the database inside the locked scope.  So in the
arrival interleaving where all attempts fetch before any acquires the
lock, every locked body checks the same stale `snapshot`, and a
successful body's `token_slot.save()` overwrites the row `db` with the
snapshot's incremented fields.  Returns the final row and the counts of
successes and failures. -/
def runStaleBookings (snapshot : TokenSlot) :
    TokenSlot → List (Nat × Nat × String) → TokenSlot × Nat × Nat
  | db, [] => (db, 0, 0)
  | db, (p, u, r) :: rest =>
    match lock_create_appointment snapshot p u r with
    | Except.ok (slot', _) =>
      let t := runStaleBookings snapshot slot' rest
      (t.1, t.2.1 + 1, t.2.2)
    | Except.error _ =>
      let t := runStaleBookings snapshot db rest
      (t.1, t.2.1, t.2.2 + 1)

theorem runStaleBookings_all_succeed (snapshot : TokenSlot)
    (hopen : snapshot.allocated < snapshot.tokens_per_slot) :
    ∀ (reqs : List (Nat × Nat × String)) (db : TokenSlot),
      (runStaleBookings snapshot db reqs).2.1 = reqs.length ∧
      (runStaleBookings snapshot db reqs).2.2 = 0 := by
  intro reqs
  induction reqs with
  | nil => intro db; exact ⟨rfl, rfl⟩
  | cons q rest ih =>
    intro db
    obtain ⟨p, u, r⟩ := q
    have hok : lock_create_appointment snapshot p u r =
        Except.ok ({ snapshot with allocated := snapshot.allocated + 1 },
          { token_slot := { snapshot with allocated := snapshot.allocated + 1 },
            patient := p, booked_by := u, reason_for_visit := r,
            status := booked_status }) := by
      simp [lock_create_appointment, Nat.not_le.mpr hopen]
    simp only [runStaleBookings, hok]
    have := ih { snapshot with allocated := snapshot.allocated + 1 }
    simp [this.1, this.2]

/-- Claim C8 (code bug): the TokenSlot is fetched before the lock is
acquired and `allocated` is never re-read inside the locked scope, so in
the interleaving where two concurrent attempts both fetch a fresh
single-token slot (allocated = 0) before either acquires the lock, both
capacity checks pass against the stale snapshot: two bookings succeed
and none is rejected, and the row is saved with `allocated = 1` although
two bookings consumed its single token — whereas the claim demands
exactly one success and one capacity rejection for every arrival
interleaving. -/
theorem concurrent_booking_stale_read :
    (runStaleBookings
        { start_time := 540, end_time := 560, availability_id := 1,
          tokens_per_slot := 1, allocated := 0 }
        { start_time := 540, end_time := 560, availability_id := 1,
          tokens_per_slot := 1, allocated := 0 }
        [(1, 1, "a"), (2, 2, "b")]).2.1 = 2 ∧
    (runStaleBookings
        { start_time := 540, end_time := 560, availability_id := 1,
          tokens_per_slot := 1, allocated := 0 }
        { start_time := 540, end_time := 560, availability_id := 1,
          tokens_per_slot := 1, allocated := 0 }
        [(1, 1, "a"), (2, 2, "b")]).2.2 = 0 ∧
    (runStaleBookings
        { start_time := 540, end_time := 560, availability_id := 1,
          tokens_per_slot := 1, allocated := 0 }
        { start_time := 540, end_time := 560, availability_id := 1,
          tokens_per_slot := 1, allocated := 0 }
        [(1, 1, "a"), (2, 2, "b")]).1.allocated = 1 := by
  refine ⟨rfl, rfl, rfl⟩
